import Mathlib

/-
Shallow embedding of the `runtime-config` file watcher (src/lib.rs).

The watcher engine owns a table of watched paths (a `BTreeMap<PathBuf, Watch<T>>`
in the source, modelled here as a key-sorted association list), processes
Watch/Unwatch commands (`FileWatcherInner::task` and `FileWatcherInner::init`)
and runs a poll pass over all entries once per tick (`FileWatcherInner::check`).
Filesystem interactions (stat / open / read_to_string) are modelled as an
oracle `FS` assigning to every path the outcome of each of the three
operations at the moment the engine touches the path.  Sends on the event
channel and writes to a request's one-shot result sink are modelled as an
explicit list of `Effect`s produced by each operation.
-/

namespace RuntimeConfig

/-- Content payload of a file event; mirrors `enum FileContent` in the source
(`Text(String)`, `Remove`, `Error(String)`). `From<std::io::Error>` turns an
I/O error into `Error(msg)`; our filesystem oracle carries the message
directly as a `String`. -/
inductive FileContent where
  | Text : String → FileContent
  | Remove : FileContent
  | Error : String → FileContent
deriving DecidableEq, Repr

/-- Mirrors `enum FileType` in the source: a single variant `Text`. -/
inductive FileType where
  | Text : FileType
deriving DecidableEq, Repr

/-- Mirrors `struct Watch<T>` in the source: the per-path table entry.  The
source field holding the subscriber tokens is called `opaque`; that word is
reserved here, so the field is named `tokens`.  `modified` is the last known
modification time (`std::time::SystemTime`), modelled as a natural number. -/
structure Watch (T : Type) where
  tokens : List T
  tp : FileType
  modified : Nat
deriving DecidableEq, Repr

/-- Mirrors `struct FileEvent<T>`: a subscriber token (source field `opaque`,
named `opq` here) together with a content payload. -/
structure FileEvent (T : Type) where
  opq : T
  content : FileContent
deriving DecidableEq, Repr

/-- Mirrors `enum WatchTask<T>`: the commands arriving on the command channel.
The `Watch` variant's one-shot result sink is not stored in the command; the
write to it is modelled as an `Effect.setSink` produced while processing. -/
inductive WatchTask (T : Type) where
  | Watch : T → FileType → String → WatchTask T
  | Unwatch : String → WatchTask T

/-- Outcome of the three filesystem operations on one path at the moment the
engine touches it: `statRes` is `fs::metadata(path)?.modified()`, `openRes` is
`fs::File::open(path)`, `readRes` is `read_to_string` on the opened file.
Errors carry the message that `e.to_string()` would produce. -/
structure FsObs where
  statRes : Except String Nat
  openRes : Except String Unit
  readRes : Except String String

/-- A filesystem oracle: what each path's stat/open/read return. -/
abbrev FS := String → FsObs

/-- Observable actions of the engine: a send on the event channel
(`self.sender.send(FileEvent{..})`) or a write to the current command's
one-shot result sink (`result.set(c)`). -/
inductive Effect (T : Type) where
  | send : FileEvent T → Effect T
  | setSink : FileContent → Effect T
deriving DecidableEq, Repr

/-- The watch table `tasks: BTreeMap<PathBuf, Watch<T>>`, modelled as an
association list kept sorted by key (in strictly increasing path order, as a
`BTreeMap` iterates). -/
abbrev Table (T : Type) := List (String × Watch T)

/-- `BTreeMap::get`: the first entry with the given key, if any. -/
def tasksGet {T : Type} : Table T → String → Option (Watch T)
  | [], _ => none
  | (q, w) :: rest, p => if q = p then some w else tasksGet rest p

/-- `BTreeMap::insert`: place the entry at its sorted position, replacing an
existing entry with the same key. -/
def tasksInsert {T : Type} (p : String) (w : Watch T) : Table T → Table T
  | [] => [(p, w)]
  | (q, u) :: rest =>
    if p < q then (p, w) :: (q, u) :: rest
    else if p = q then (p, w) :: rest
    else (q, u) :: tasksInsert p w rest

/-- `BTreeMap::remove`: drop the (first) entry with the given key. -/
def tasksRemove {T : Type} (p : String) : Table T → Table T
  | [] => []
  | (q, u) :: rest => if q = p then rest else (q, u) :: tasksRemove p rest

/-- Mirrors `FileWatcherInner::init` (src/lib.rs lines 187-211): for a path
with no existing entry, stat then open (the inner `path_to_file`), then read;
on full success return the new entry (this token as sole subscriber, stored
modification time the one observed by stat) and the text for the result sink;
on any failure return no entry and the error for the result sink. -/
def init {T : Type} (tok : T) (tp : FileType) (fs : FS) (path : String) :
    Option (Watch T) × FileContent :=
  match (fs path).statRes with
  | .error e => (none, .Error e)
  | .ok mtime =>
    match (fs path).openRes with
    | .error e => (none, .Error e)
    | .ok _ =>
      match tp with
      | .Text =>
        match (fs path).readRes with
        | .ok s => (some (Watch.mk [tok] tp mtime), .Text s)
        | .error e => (none, .Error e)

/-- Mirrors `FileWatcherInner::task` (src/lib.rs lines 155-185): process one
command.  A `Watch` on a path that already has an entry appends the token to
the entry's subscriber list, then re-opens and re-reads the file (no stat, no
modification-time comparison) and writes the outcome to the result sink.  A
`Watch` on a new path runs `init` and inserts the entry only on success.  An
`Unwatch` removes the whole entry.  Returns the new table and the effects
performed. -/
def task {T : Type} (fs : FS) (st : Table T) : WatchTask T → Table T × List (Effect T)
  | .Watch tok tp path =>
    match tasksGet st path with
    | some tsk =>
      let tsk' : Watch T := Watch.mk (tsk.tokens ++ [tok]) tsk.tp tsk.modified
      let c : FileContent :=
        match (fs path).openRes with
        | .ok _ =>
          match tp with
          | .Text =>
            match (fs path).readRes with
            | .ok s => .Text s
            | .error e => .Error e
        | .error e => .Error e
      (tasksInsert path tsk' st, [.setSink c])
    | none =>
      match init tok tp fs path with
      | (some w, c) => (tasksInsert path w st, [.setSink c])
      | (none, c) => (st, [.setSink c])
  | .Unwatch path => (tasksRemove path st, [])

/-- Result of scanning one table entry during a poll pass: either keep the
entry (possibly with an updated modification time) and emit the listed
events, or mark the path for eviction (`to_remove.push`) with no events. -/
inductive EntryOutcome (T : Type) where
  | keep : Watch T → List (FileEvent T) → EntryOutcome T
  | evict : EntryOutcome T
deriving DecidableEq, Repr

/-- The body of the loop in `FileWatcherInner::check` (src/lib.rs lines
220-244) for a single entry: stat failure evicts silently; a strictly newer
modification time triggers open (failure evicts silently) and read; a read
success updates the stored modification time and fans out one `Text` event
per subscriber token; a read failure leaves the entry untouched and fans out
one `Error` event per token; a non-newer modification time leaves the entry
untouched with no events. -/
def checkEntry {T : Type} (fs : FS) (path : String) (watch : Watch T) : EntryOutcome T :=
  match (fs path).statRes with
  | .ok mtime =>
    if watch.modified < mtime then
      match (fs path).openRes with
      | .ok _ =>
        match watch.tp with
        | .Text =>
          match (fs path).readRes with
          | .ok s =>
            .keep (Watch.mk watch.tokens watch.tp mtime)
              (watch.tokens.map (fun op => FileEvent.mk op (.Text s)))
          | .error e =>
            .keep watch (watch.tokens.map (fun op => FileEvent.mk op (.Error e)))
      | .error _ => .evict
    else .keep watch []
  | .error _ => .evict

/-- The table contribution of one scanned entry: the (possibly updated)
entry when kept, `none` when its path is marked for eviction. -/
def checkKeep {T : Type} (fs : FS) (pw : String × Watch T) : Option (String × Watch T) :=
  match checkEntry fs pw.1 pw.2 with
  | .keep w _ => some (pw.1, w)
  | .evict => none

/-- The event-channel sends produced while scanning one entry. -/
def checkEffects {T : Type} (fs : FS) (pw : String × Watch T) : List (Effect T) :=
  match checkEntry fs pw.1 pw.2 with
  | .keep _ evs => evs.map .send
  | .evict => []

/-- Mirrors `FileWatcherInner::check` (src/lib.rs lines 213-249): scan every
entry in path order, collecting the evicted paths on the side, and only after
the full scan remove them from the table; events are sent entry by entry
during the scan. -/
def check {T : Type} (fs : FS) (st : Table T) : Table T × List (Effect T) :=
  (st.filterMap (checkKeep fs), st.flatMap (checkEffects fs))

/-- One iteration of the worker loop in `FileWatcher::new`: either a command
arrived on the channel and is processed (`inner.task`), or the wait timed
out; either way each command processed and each tick is followed by a poll
pass, so a step is a command step or a poll step, each against the filesystem
as observed at that moment. -/
inductive EngineStep (T : Type) where
  | cmd : FS → WatchTask T → EngineStep T
  | poll : FS → EngineStep T

/-- Run one engine step, returning the new table and the effects performed. -/
def stepRun {T : Type} (st : Table T) : EngineStep T → Table T × List (Effect T)
  | .cmd fs c => task fs st c
  | .poll fs => check fs st

/-- Run a sequence of engine steps from a starting table. -/
def run {T : Type} (st : Table T) : List (EngineStep T) → Table T
  | [] => st
  | s :: rest => run (stepRun st s).1 rest

/-- A table is reachable when some sequence of engine steps produces it from
the empty table the worker starts with (`tasks: BTreeMap::new()`). -/
def Reachable {T : Type} (st : Table T) : Prop :=
  ∃ tr : List (EngineStep T), run [] tr = st

/-- Table keys are in strictly increasing order (the `BTreeMap` invariant). -/
def keysSorted {T : Type} (st : Table T) : Prop :=
  List.Pairwise (· < ·) (st.map Prod.fst)

instance {T : Type} (st : Table T) : Decidable (keysSorted st) := by
  unfold keysSorted; infer_instance

/-- A path is present in the table. -/
def pathMem {T : Type} (p : String) (st : Table T) : Prop :=
  (tasksGet st p).isSome = true

instance {T : Type} (p : String) (st : Table T) : Decidable (pathMem p st) := by
  unfold pathMem; infer_instance

/-- All three filesystem operations on the path succeed — the condition under
which `init` creates an entry (successful initial registration). -/
def regSuccess (fs : FS) (p : String) : Bool :=
  match (fs p).statRes with
  | .ok _ =>
    match (fs p).openRes with
    | .ok _ =>
      match (fs p).readRes with
      | .ok _ => true
      | .error _ => false
    | .error _ => false
  | .error _ => false

/-- The poll-pass eviction condition on a tracked entry: stat fails, or the
modification time is strictly newer and open fails. -/
def evicts {T : Type} (fs : FS) (p : String) (w : Watch T) : Bool :=
  match (fs p).statRes with
  | .error _ => true
  | .ok mtime =>
    if w.modified < mtime then
      match (fs p).openRes with
      | .error _ => true
      | .ok _ => false
    else false

/-- The content produced by the immediate re-open-and-re-read a `Watch`
command performs when the path already has an entry: it depends only on the
path's open and read outcomes and the request's file type, not on the entry's
stored modification time. -/
def rereadContent (fs : FS) (tp : FileType) (p : String) : FileContent :=
  match (fs p).openRes with
  | .ok _ =>
    match tp with
    | .Text =>
      match (fs p).readRes with
      | .ok s => .Text s
      | .error e => .Error e
  | .error e => .Error e

/-- The engine step adds path `p` to the table exactly when it is a `Watch`
command for `p` and the initial registration (stat+open+read) succeeds. -/
def addedBy {T : Type} : EngineStep T → String → Prop
  | .cmd fs (.Watch _ _ q), p => q = p ∧ regSuccess fs p = true
  | .cmd _ (.Unwatch _), _ => False
  | .poll _, _ => False

/-- The engine step removes path `p` from table `st` exactly when it is an
`Unwatch p` command, or a poll pass whose filesystem observation triggers the
eviction condition on `p`'s entry. -/
def removedBy {T : Type} (st : Table T) : EngineStep T → String → Prop
  | .cmd _ (.Unwatch q), p => q = p
  | .cmd _ (.Watch _ _ _), _ => False
  | .poll fs, p => ∃ w, tasksGet st p = some w ∧ evicts fs p w = true

/-- Result-sink writes among a list of effects. -/
def sinkWrites {T : Type} (effs : List (Effect T)) : List FileContent :=
  effs.filterMap (fun eff =>
    match eff with
    | .setSink c => some c
    | .send _ => none)

/-- Whether an effect carries the `Remove` content variant, either as a
broadcast event or as a result-sink write. -/
def isRemoveEffect {T : Type} : Effect T → Bool
  | .send e => e.content = FileContent.Remove
  | .setSink c => c = FileContent.Remove

theorem tasksGet_insert {T : Type} (q : String) (w : Watch T) (st : Table T) (p : String) :
    tasksGet (tasksInsert q w st) p = if q = p then some w else tasksGet st p := by
  induction st with
  | nil =>
    simp only [tasksInsert, tasksGet]
  | cons hd tl ih =>
    obtain ⟨r, u⟩ := hd
    simp only [tasksInsert]
    by_cases hlt : q < r
    · rw [if_pos hlt]
      simp only [tasksGet]
    · rw [if_neg hlt]
      by_cases hqr : q = r
      · rw [if_pos hqr]
        simp only [tasksGet]
        by_cases hqp : q = p
        · simp [hqp]
        · have hrp : r ≠ p := by
            rw [← hqr]
            exact hqp
          rw [if_neg hqp, if_neg hqp, if_neg hrp]
      · rw [if_neg hqr]
        simp only [tasksGet, ih]
        by_cases hrp : r = p
        · by_cases hqp : q = p
          · exact absurd (hqp.trans hrp.symm) hqr
          · simp [hrp, hqp]
        · by_cases hqp : q = p
          · simp [hrp, hqp]
          · simp [hrp, hqp]

theorem tasksGet_remove_ne {T : Type} (q : String) (st : Table T) (p : String) (h : p ≠ q) :
    tasksGet (tasksRemove q st) p = tasksGet st p := by
  induction st with
  | nil => rfl
  | cons hd tl ih =>
    obtain ⟨r, u⟩ := hd
    simp only [tasksRemove]
    by_cases hrq : r = q
    · rw [if_pos hrq]
      have hrp : r ≠ p := by
        rw [hrq]
        exact fun hc => h hc.symm
      simp only [tasksGet, if_neg hrp]
    · rw [if_neg hrq]
      simp only [tasksGet]
      by_cases hrp : r = p
      · rw [if_pos hrp, if_pos hrp]
      · rw [if_neg hrp, if_neg hrp, ih]

theorem tasksGet_eq_none_iff {T : Type} (st : Table T) (p : String) :
    tasksGet st p = none ↔ p ∉ st.map Prod.fst := by
  induction st with
  | nil => simp [tasksGet]
  | cons hd tl ih =>
    obtain ⟨r, u⟩ := hd
    simp only [tasksGet, List.map_cons, List.mem_cons]
    by_cases hrp : r = p
    · simp [hrp]
    · simp only [if_neg hrp, ih]
      constructor
      · intro hn hc
        rcases hc with hc | hc
        · exact hrp hc.symm
        · exact hn hc
      · intro hn
        exact fun hc => hn (Or.inr hc)

theorem tasksGet_isSome_iff {T : Type} (st : Table T) (p : String) :
    (tasksGet st p).isSome = true ↔ p ∈ st.map Prod.fst := by
  rcases hg : tasksGet st p with _ | w
  · simpa using (tasksGet_eq_none_iff st p).1 hg
  · simp only [Option.isSome_some, true_iff]
    by_contra hmem
    rw [← tasksGet_eq_none_iff st p] at hmem
    rw [hg] at hmem
    exact Option.noConfusion hmem

theorem tasksGet_remove_self {T : Type} (st : Table T) (p : String)
    (h : List.Pairwise (· ≠ ·) (st.map Prod.fst)) :
    tasksGet (tasksRemove p st) p = none := by
  induction st with
  | nil => rfl
  | cons hd tl ih =>
    obtain ⟨r, u⟩ := hd
    simp only [List.map_cons, List.pairwise_cons] at h
    simp only [tasksRemove]
    by_cases hrp : r = p
    · rw [if_pos hrp]
      rw [tasksGet_eq_none_iff]
      intro hc
      exact h.1 _ hc hrp
    · rw [if_neg hrp]
      simp only [tasksGet, if_neg hrp]
      exact ih h.2

theorem tasksGet_mem {T : Type} {st : Table T} {p : String} {w : Watch T}
    (h : tasksGet st p = some w) : (p, w) ∈ st := by
  induction st with
  | nil => simp [tasksGet] at h
  | cons hd tl ih =>
    obtain ⟨r, u⟩ := hd
    simp only [tasksGet] at h
    by_cases hrp : r = p
    · subst hrp
      rw [if_pos rfl] at h
      cases h
      exact List.mem_cons_self _ _
    · rw [if_neg hrp] at h
      exact List.mem_cons_of_mem _ (ih h)

theorem mem_tasksGet {T : Type} {st : Table T} {p : String} {w : Watch T}
    (hnd : List.Pairwise (· ≠ ·) (st.map Prod.fst))
    (h : (p, w) ∈ st) : tasksGet st p = some w := by
  induction st with
  | nil => cases h
  | cons hd tl ih =>
    obtain ⟨r, u⟩ := hd
    simp only [List.map_cons, List.pairwise_cons] at hnd
    rcases List.mem_cons.1 h with heq | hmem
    · cases heq
      simp [tasksGet]
    · have hrp : r ≠ p := by
        intro hc
        exact hnd.1 _ (List.mem_map.2 ⟨(p, w), hmem, rfl⟩) hc
      simp only [tasksGet, if_neg hrp]
      exact ih hnd.2 hmem

theorem tasksRemove_sublist {T : Type} (p : String) (st : Table T) :
    List.Sublist (tasksRemove p st) st := by
  induction st with
  | nil => simp [tasksRemove]
  | cons hd tl ih =>
    obtain ⟨r, u⟩ := hd
    simp only [tasksRemove]
    by_cases hrp : r = p
    · simp only [if_pos hrp]
      exact List.sublist_cons_self _ _
    · simp only [if_neg hrp]
      exact ih.cons₂ _

theorem tasksInsert_fst_subset {T : Type} (p : String) (w : Watch T) (st : Table T) :
    (tasksInsert p w st).map Prod.fst ⊆ p :: st.map Prod.fst := by
  induction st with
  | nil =>
    intro x hx
    simp only [tasksInsert, List.map_cons, List.map_nil] at hx
    simpa using hx
  | cons hd tl ih =>
    obtain ⟨r, u⟩ := hd
    intro x hx
    simp only [tasksInsert] at hx
    simp only [List.map_cons, List.mem_cons]
    by_cases h1 : p < r
    · rw [if_pos h1] at hx
      simp only [List.map_cons, List.mem_cons] at hx
      tauto
    · rw [if_neg h1] at hx
      by_cases h2 : p = r
      · rw [if_pos h2] at hx
        simp only [List.map_cons, List.mem_cons] at hx
        tauto
      · rw [if_neg h2] at hx
        simp only [List.map_cons, List.mem_cons] at hx
        rcases hx with hx | hx
        · exact Or.inr (Or.inl hx)
        · rcases List.mem_cons.1 (ih hx) with hc | hc
          · exact Or.inl hc
          · exact Or.inr (Or.inr hc)

theorem keysSorted_insert {T : Type} (p : String) (w : Watch T) (st : Table T)
    (h : keysSorted st) : keysSorted (tasksInsert p w st) := by
  induction st with
  | nil =>
    unfold keysSorted tasksInsert
    simp
  | cons hd tl ih =>
    obtain ⟨r, u⟩ := hd
    unfold keysSorted at h
    simp only [List.map_cons, List.pairwise_cons] at h
    simp only [tasksInsert]
    by_cases hlt : p < r
    · rw [if_pos hlt]
      unfold keysSorted
      simp only [List.map_cons, List.pairwise_cons]
      refine ⟨?_, h.1, h.2⟩
      intro k hk
      rcases List.mem_cons.1 hk with heq | hmem
      · exact heq ▸ hlt
      · exact lt_trans hlt (h.1 k hmem)
    · rw [if_neg hlt]
      by_cases heq : p = r
      · rw [if_pos heq]
        unfold keysSorted
        simp only [List.map_cons, List.pairwise_cons]
        constructor
        · intro k hk
          rw [heq]
          exact h.1 k hk
        · exact h.2
      · rw [if_neg heq]
        have hrp : r < p := by
          rcases lt_trichotomy p r with hc | hc | hc
          · exact absurd hc hlt
          · exact absurd hc heq
          · exact hc
        unfold keysSorted
        simp only [List.map_cons, List.pairwise_cons]
        have ihs : keysSorted (tasksInsert p w tl) := ih h.2
        refine ⟨?_, ihs⟩
        intro k hk
        rcases List.mem_cons.1 (tasksInsert_fst_subset p w tl hk) with hc | hc
        · exact hc ▸ hrp
        · exact h.1 k hc

theorem keysSorted_remove {T : Type} (p : String) (st : Table T)
    (h : keysSorted st) : keysSorted (tasksRemove p st) :=
  List.Pairwise.sublist ((tasksRemove_sublist p st).map Prod.fst) h

theorem checkKeep_fst {T : Type} (fs : FS) (pw pr : String × Watch T)
    (h : checkKeep fs pw = some pr) : pr.1 = pw.1 := by
  unfold checkKeep at h
  cases hout : checkEntry fs pw.1 pw.2 with
  | keep w' evs =>
    rw [hout] at h
    cases h
    rfl
  | evict =>
    rw [hout] at h
    cases h

theorem check_fst_keys_sublist {T : Type} (fs : FS) (st : Table T) :
    List.Sublist ((check fs st).1.map Prod.fst) (st.map Prod.fst) := by
  induction st with
  | nil => simp [check]
  | cons hd tl ih =>
    simp only [check, List.filterMap_cons] at *
    rcases hk : checkKeep fs hd with _ | pr
    · simp only [List.map_cons]
      exact ih.cons _
    · simp only [List.map_cons]
      rw [checkKeep_fst fs hd pr hk]
      exact ih.cons₂ _

theorem keysSorted_check {T : Type} (fs : FS) (st : Table T)
    (h : keysSorted st) : keysSorted (check fs st).1 :=
  List.Pairwise.sublist (check_fst_keys_sublist fs st) h

theorem keysSorted_nodup {T : Type} {st : Table T} (h : keysSorted st) :
    List.Pairwise (· ≠ ·) (st.map Prod.fst) :=
  h.imp (fun hlt => ne_of_lt hlt)

theorem init_fst_isSome {T : Type} (tok : T) (tp : FileType) (fs : FS) (p : String) :
    (init tok tp fs p).1.isSome = regSuccess fs p := by
  unfold init regSuccess
  cases h1 : (fs p).statRes with
  | error e => rfl
  | ok mtime =>
    cases h2 : (fs p).openRes with
    | error e => rfl
    | ok uu =>
      cases tp
      cases h3 : (fs p).readRes with
      | error e => rfl
      | ok s => rfl

theorem checkEntry_evict_iff {T : Type} (fs : FS) (p : String) (w : Watch T) :
    checkEntry fs p w = .evict ↔ evicts fs p w = true := by
  unfold checkEntry evicts
  cases h1 : (fs p).statRes with
  | error e => simp
  | ok mtime =>
    by_cases h2 : w.modified < mtime
    · cases h3 : (fs p).openRes with
      | error e => simp [h2, h3]
      | ok uu =>
        cases htp : w.tp
        cases h4 : (fs p).readRes with
        | error e => simp [h2, h3, htp, h4]
        | ok s => simp [h2, h3, htp, h4]
    · simp [h2]

theorem tasksGet_check {T : Type} (fs : FS) (st : Table T) (p : String)
    (hnd : List.Pairwise (· ≠ ·) (st.map Prod.fst)) :
    tasksGet (check fs st).1 p =
      match tasksGet st p with
      | some w =>
        match checkEntry fs p w with
        | .keep w' _ => some w'
        | .evict => none
      | none => none := by
  induction st with
  | nil => rfl
  | cons hd tl ih =>
    obtain ⟨r, u⟩ := hd
    simp only [List.map_cons, List.pairwise_cons] at hnd
    simp only [check, List.filterMap_cons] at *
    by_cases hrp : r = p
    · simp only [tasksGet, if_pos hrp]
      unfold checkKeep
      cases hout : checkEntry fs r u with
      | keep w' evs =>
        have : checkEntry fs p u = .keep w' evs := by rw [← hrp]; exact hout
        simp only [this, tasksGet, if_pos hrp]
      | evict =>
        have : checkEntry fs p u = .evict := by rw [← hrp]; exact hout
        simp only [this]
        rw [tasksGet_eq_none_iff]
        intro hc
        have hmem : p ∈ tl.map Prod.fst := by
          have h2 := check_fst_keys_sublist fs tl
          simp only [check] at h2
          exact List.Sublist.subset h2 hc
        exact hnd.1 p hmem hrp
    · simp only [tasksGet, if_neg hrp]
      cases hk : checkKeep fs (r, u) with
      | none => exact ih hnd.2
      | some pr =>
        have hpr : pr.1 = r := checkKeep_fst fs (r, u) pr hk
        have hprp : pr.1 ≠ p := by rw [hpr]; exact hrp
        rcases pr with ⟨pr1, pr2⟩
        simp only [tasksGet, if_neg hprp]
        exact ih hnd.2

theorem keysSorted_step {T : Type} (st : Table T) (s : EngineStep T)
    (h : keysSorted st) : keysSorted (stepRun st s).1 := by
  cases s with
  | poll fs => exact keysSorted_check fs st h
  | cmd fs c =>
    cases c with
    | Unwatch p => exact keysSorted_remove p st h
    | Watch tok tp p =>
      simp only [stepRun, task]
      cases hg : tasksGet st p with
      | some tsk => exact keysSorted_insert p _ st h
      | none =>
        cases hi : init tok tp fs p with
        | mk ow c =>
          cases ow with
          | some w => exact keysSorted_insert p w st h
          | none => exact h

theorem keysSorted_run {T : Type} (st : Table T) (tr : List (EngineStep T))
    (h : keysSorted st) : keysSorted (run st tr) := by
  induction tr generalizing st with
  | nil => exact h
  | cons s rest ih => exact ih _ (keysSorted_step st s h)

theorem keysSorted_of_reachable {T : Type} {st : Table T} (h : Reachable st) :
    keysSorted st := by
  obtain ⟨tr, htr⟩ := h
  rw [← htr]
  refine keysSorted_run [] tr ?_
  unfold keysSorted
  simp

theorem stepRun_pathMem {T : Type} (st : Table T) (s : EngineStep T)
    (hs : keysSorted st) (p : String) :
    pathMem p (stepRun st s).1 ↔
      (pathMem p st ∧ ¬ removedBy st s p) ∨ (¬ pathMem p st ∧ addedBy s p) := by
  have hnd := keysSorted_nodup hs
  cases s with
  | cmd fs c =>
    cases c with
    | Watch tok tp q =>
      simp only [stepRun, task, removedBy, addedBy]
      cases hg : tasksGet st q with
      | some tsk =>
        unfold pathMem
        rw [tasksGet_insert]
        by_cases hqp : q = p
        · have hp : tasksGet st p = some tsk := by rw [← hqp]; exact hg
          simp [hqp, hp]
        · simp [hqp]
      | none =>
        cases hi : init tok tp fs q with
        | mk ow c =>
          have hreg := init_fst_isSome tok tp fs q
          rw [hi] at hreg
          cases ow with
          | some w =>
            simp only [Option.isSome_some] at hreg
            unfold pathMem
            rw [tasksGet_insert]
            by_cases hqp : q = p
            · have hp : tasksGet st p = none := by rw [← hqp]; exact hg
              have hregp : regSuccess fs p = true := by rw [← hqp]; exact hreg.symm
              simp [hqp, hp, hregp]
            · simp [hqp]
          | none =>
            simp only [Option.isSome_none] at hreg
            by_cases hqp : q = p
            · have hrp : regSuccess fs p = false := by rw [← hqp, ← hreg]
              simp [hqp, hrp]
            · simp [hqp]
    | Unwatch q =>
      simp only [stepRun, task, removedBy, addedBy]
      unfold pathMem
      by_cases hqp : q = p
      · rcases hqp with rfl
        simp [tasksGet_remove_self st q hnd]
      · have hpq : p ≠ q := fun hc => hqp hc.symm
        rw [tasksGet_remove_ne q st p hpq]
        simp [hqp]
  | poll fs =>
    simp only [stepRun, removedBy, addedBy]
    unfold pathMem
    rw [tasksGet_check fs st p hnd]
    cases hg : tasksGet st p with
    | none => simp
    | some w =>
      have hev := checkEntry_evict_iff fs p w
      cases hout : checkEntry fs p w with
      | keep w' evs =>
        have hev2 : evicts fs p w = false := by
          cases hb : evicts fs p w
          · rfl
          · rw [hout] at hev
            exact absurd (hev.2 hb) (by simp)
        simp [hout, hev2]
      | evict =>
        have hev2 : evicts fs p w = true := hev.1 hout
        simp [hout, hev2]

theorem tasksRemove_id {T : Type} (st : Table T) (p : String)
    (h : tasksGet st p = none) : tasksRemove p st = st := by
  induction st with
  | nil => rfl
  | cons hd tl ih =>
    obtain ⟨r, u⟩ := hd
    simp only [tasksGet] at h
    by_cases hrp : r = p
    · rw [if_pos hrp] at h
      cases h
    · rw [if_neg hrp] at h
      simp only [tasksRemove, if_neg hrp]
      rw [ih h]

theorem mem_tasksRemove_iff {T : Type} (st : Table T) (p q : String) (u : Watch T)
    (h : q ≠ p) : (q, u) ∈ tasksRemove p st ↔ (q, u) ∈ st := by
  induction st with
  | nil => simp [tasksRemove]
  | cons hd tl ih =>
    obtain ⟨r, v⟩ := hd
    simp only [tasksRemove]
    by_cases hrp : r = p
    · rw [if_pos hrp]
      constructor
      · intro hm
        exact List.mem_cons_of_mem _ hm
      · intro hm
        rcases List.mem_cons.1 hm with heq | hm2
        · cases heq
          exact absurd hrp h
        · exact hm2
    · rw [if_neg hrp]
      constructor
      · intro hm
        rcases List.mem_cons.1 hm with heq | hm2
        · cases heq
          exact List.mem_cons_self _ _
        · exact List.mem_cons_of_mem _ (ih.1 hm2)
      · intro hm
        rcases List.mem_cons.1 hm with heq | hm2
        · cases heq
          exact List.mem_cons_self _ _
        · exact List.mem_cons_of_mem _ (ih.2 hm2)

theorem init_fail {T : Type} (tok : T) (tp : FileType) (fs : FS) (p : String)
    (h : regSuccess fs p = false) :
    ∃ e, init tok tp fs p = (none, FileContent.Error e) := by
  unfold init
  unfold regSuccess at h
  cases h1 : (fs p).statRes with
  | error e => exact ⟨e, rfl⟩
  | ok mtime =>
    rw [h1] at h
    cases h2 : (fs p).openRes with
    | error e => exact ⟨e, rfl⟩
    | ok uu =>
      rw [h2] at h
      cases tp
      cases h3 : (fs p).readRes with
      | error e => exact ⟨e, rfl⟩
      | ok s =>
        rw [h3] at h
        cases h

theorem rereadContent_ne_remove (fs : FS) (tp : FileType) (p : String) :
    rereadContent fs tp p ≠ FileContent.Remove := by
  unfold rereadContent
  cases h1 : (fs p).openRes with
  | error e => simp
  | ok uu =>
    cases tp
    cases h2 : (fs p).readRes with
    | error e => simp
    | ok s => simp

theorem init_snd_ne_remove {T : Type} (tok : T) (tp : FileType) (fs : FS) (p : String) :
    (init tok tp fs p).2 ≠ FileContent.Remove := by
  unfold init
  cases h1 : (fs p).statRes with
  | error e => simp
  | ok mtime =>
    cases h2 : (fs p).openRes with
    | error e => simp
    | ok uu =>
      cases tp
      cases h3 : (fs p).readRes with
      | error e => simp
      | ok s => simp

theorem checkEffects_no_remove {T : Type} (fs : FS) (pw : String × Watch T) :
    (checkEffects fs pw).filter (fun eff => isRemoveEffect eff) = [] := by
  unfold checkEffects checkEntry
  cases h1 : (fs pw.1).statRes with
  | error e => simp
  | ok mtime =>
    by_cases h2 : pw.2.modified < mtime
    · cases h3 : (fs pw.1).openRes with
      | error e => simp [h2, h3]
      | ok uu =>
        cases htp : pw.2.tp
        cases h4 : (fs pw.1).readRes with
        | error e =>
          simp only [h2, if_true, h3, htp, h4, List.filter_eq_nil_iff]
          intro eff heff
          rcases List.mem_map.1 heff with ⟨ev, hev1, hev2⟩
          rcases List.mem_map.1 hev1 with ⟨t, ht1, ht2⟩
          rw [← hev2, ← ht2]
          simp [isRemoveEffect]
        | ok s =>
          simp only [h2, if_true, h3, htp, h4, List.filter_eq_nil_iff]
          intro eff heff
          rcases List.mem_map.1 heff with ⟨ev, hev1, hev2⟩
          rcases List.mem_map.1 hev1 with ⟨t, ht1, ht2⟩
          rw [← hev2, ← ht2]
          simp [isRemoveEffect]
    · simp [h2]

theorem check_no_remove {T : Type} (fs : FS) (st : Table T) :
    ((check fs st).2).filter (fun eff => isRemoveEffect eff) = [] := by
  induction st with
  | nil => rfl
  | cons hd tl ih =>
    simp only [check, List.flatMap_cons, List.filter_append] at *
    rw [checkEffects_no_remove fs hd, ih]
    rfl

theorem sinkWrites_append {T : Type} (l1 l2 : List (Effect T)) :
    sinkWrites (l1 ++ l2) = sinkWrites l1 ++ sinkWrites l2 := by
  unfold sinkWrites
  exact List.filterMap_append l1 l2 _

theorem sinkWrites_checkEffects {T : Type} (fs : FS) (pw : String × Watch T) :
    sinkWrites (checkEffects fs pw) = [] := by
  unfold checkEffects
  cases hout : checkEntry fs pw.1 pw.2 with
  | keep w evs =>
    unfold sinkWrites
    simp
  | evict => rfl

theorem sinkWrites_check {T : Type} (fs : FS) (st : Table T) :
    sinkWrites (check fs st).2 = [] := by
  induction st with
  | nil => rfl
  | cons hd tl ih =>
    simp only [check, List.flatMap_cons] at *
    rw [sinkWrites_append, sinkWrites_checkEffects fs hd, ih]
    rfl

theorem task_watch_existing {T : Type} (fs : FS) (st : Table T) (tok : T)
    (tp : FileType) (p : String) (w : Watch T) (hget : tasksGet st p = some w) :
    task fs st (.Watch tok tp p) =
      (tasksInsert p (Watch.mk (w.tokens ++ [tok]) w.tp w.modified) st,
       [Effect.setSink (rereadContent fs tp p)]) := by
  simp only [task]
  rw [hget]
  cases tp
  rfl

theorem task_watch_new {T : Type} (fs : FS) (st : Table T) (tok : T)
    (tp : FileType) (p : String) (hget : tasksGet st p = none) :
    task fs st (.Watch tok tp p) =
      match init tok tp fs p with
      | (some w, c) => (tasksInsert p w st, [Effect.setSink c])
      | (none, c) => (st, [Effect.setSink c]) := by
  simp only [task]
  rw [hget]

theorem task_no_remove {T : Type} (fs : FS) (st : Table T) (c : WatchTask T) :
    ((task fs st c).2).filter (fun eff => isRemoveEffect eff) = [] := by
  cases c with
  | Unwatch p => rfl
  | Watch tok tp p =>
    cases hget : tasksGet st p with
    | some w =>
      rw [task_watch_existing fs st tok tp p w hget]
      simp [isRemoveEffect, rereadContent_ne_remove fs tp p]
    | none =>
      rw [task_watch_new fs st tok tp p hget]
      cases hi : init tok tp fs p with
      | mk ow cc =>
        have h := init_snd_ne_remove tok tp fs p
        rw [hi] at h
        cases ow with
        | some w => simp [isRemoveEffect, h]
        | none => simp [isRemoveEffect, h]

theorem stepRun_no_remove {T : Type} (st : Table T) (s : EngineStep T) :
    ((stepRun st s).2).filter (fun eff => isRemoveEffect eff) = [] := by
  cases s with
  | cmd fs2 c => exact task_no_remove fs2 st c
  | poll fs2 => exact check_no_remove fs2 st

/-- Concrete oracle: every operation succeeds, modification time 5, text "x". -/
def fsGood : FS := fun _ => FsObs.mk (Except.ok 5) (Except.ok ()) (Except.ok "x")

/-- Concrete oracle: every operation succeeds, modification time 9, text "y". -/
def fsGood2 : FS := fun _ => FsObs.mk (Except.ok 9) (Except.ok ()) (Except.ok "y")

/-- Concrete oracle: stat, open and read all fail on every path. -/
def fsGone : FS :=
  fun _ => FsObs.mk (Except.error "no such file") (Except.error "no such file")
    (Except.error "no such file")

/-- Concrete oracle: stat reports time 9 but open (and read) fail. -/
def fsOpenFail : FS :=
  fun _ => FsObs.mk (Except.ok 9) (Except.error "no such file") (Except.error "no such file")

/-- Concrete oracle: stat reports time 9, open succeeds, read fails. -/
def fsReadFail : FS :=
  fun _ => FsObs.mk (Except.ok 9) (Except.ok ()) (Except.error "stream did not contain valid UTF-8")

/-- Concrete table: one entry for "a.txt" with subscriber token 7, time 5. -/
def stOne : Table Nat := [("a.txt", Watch.mk [7] FileType.Text 5)]

/-- Concrete table: one entry for "shared.txt" with tokens 7 and 8, time 5. -/
def stShared : Table Nat := [("shared.txt", Watch.mk [7, 8] FileType.Text 5)]

/-- Concrete table: entries for "a.txt" (token 7) and "b.txt" (token 8). -/
def stPair : Table Nat :=
  [("a.txt", Watch.mk [7] FileType.Text 5), ("b.txt", Watch.mk [8] FileType.Text 5)]

/-- Concrete oracle: "a.txt" has disappeared (stat fails) while every other
path reads successfully with modification time 9 and text "y". -/
def fsMixed : FS := fun p =>
  if p = "a.txt" then
    FsObs.mk (Except.error "no such file") (Except.error "no such file")
      (Except.error "no such file")
  else FsObs.mk (Except.ok 9) (Except.ok ()) (Except.ok "y")

/-- C1: in every reachable engine state the Watch Table has at most one entry
per path (its keys are pairwise distinct), and across any engine step a path
is present in the resulting table exactly when it was present and not removed
by that step (an explicit Unwatch, or an eviction caused by a failed stat or
failed open during a poll pass), or it was absent and the step was a Watch
command for it whose initial registration (stat+open+read) succeeded — so an
entry is only ever created by a successful initial read. -/
theorem watch_table_membership_invariant {T : Type} (st : Table T) (h : Reachable st) :
    List.Pairwise (· ≠ ·) (st.map Prod.fst) ∧
    ∀ (s : EngineStep T) (p : String),
      pathMem p (stepRun st s).1 ↔
        (pathMem p st ∧ ¬ removedBy st s p) ∨ (¬ pathMem p st ∧ addedBy s p) :=
  ⟨keysSorted_nodup (keysSorted_of_reachable h),
   fun s p => stepRun_pathMem st s (keysSorted_of_reachable h) p⟩

/-- Witness for C1: the table holding "a.txt" is reachable by one successful
Watch command, and the membership characterization holds there for a poll
step on which stat fails. -/
theorem watch_table_membership_invariant_witness :
    Reachable stOne ∧
    (pathMem "a.txt" (stepRun stOne (EngineStep.poll fsGone)).1 ↔
      (pathMem "a.txt" stOne ∧ ¬ removedBy stOne (EngineStep.poll fsGone) "a.txt") ∨
      (¬ pathMem "a.txt" stOne ∧ addedBy (EngineStep.poll fsGone : EngineStep Nat) "a.txt")) := by
  have hr : Reachable stOne :=
    ⟨[EngineStep.cmd fsGood (WatchTask.Watch 7 FileType.Text "a.txt")], rfl⟩
  exact ⟨hr, (watch_table_membership_invariant stOne hr).2 (EngineStep.poll fsGone) "a.txt"⟩

/-- C2: during a poll pass, a tracked entry whose stat succeeds with a
strictly newer modification time and whose open and read succeed has its
stored modification time updated to the observed value, stays in the table,
and fans out exactly one update event carrying the newly read text per
subscriber token (one independent copy per token, all with the same content);
if the modification time is not strictly greater the entry is left untouched
and no event is emitted. -/
theorem poll_update_fanout {T : Type} (fs : FS) (st : Table T) (p : String)
    (w : Watch T) (m : Nat) (s : String)
    (hmem : (p, w) ∈ st)
    (hstat : (fs p).statRes = Except.ok m)
    (hopen : (fs p).openRes = Except.ok ())
    (hread : (fs p).readRes = Except.ok s) :
    (w.modified < m →
      checkEntry fs p w = EntryOutcome.keep (Watch.mk w.tokens w.tp m)
        (w.tokens.map (fun t => FileEvent.mk t (FileContent.Text s))) ∧
      (p, Watch.mk w.tokens w.tp m) ∈ (check fs st).1 ∧
      ∀ ev ∈ w.tokens.map (fun t => FileEvent.mk t (FileContent.Text s)),
        Effect.send ev ∈ (check fs st).2) ∧
    (¬ w.modified < m →
      checkEntry fs p w = EntryOutcome.keep w [] ∧
      (p, w) ∈ (check fs st).1 ∧ checkEffects fs (p, w) = []) := by
  have htp : w.tp = FileType.Text := by
    cases hh : w.tp
    exact hh
  constructor
  · intro hlt
    have hce : checkEntry fs p w = EntryOutcome.keep (Watch.mk w.tokens w.tp m)
        (w.tokens.map (fun t => FileEvent.mk t (FileContent.Text s))) := by
      unfold checkEntry
      rw [hstat]
      simp [hlt, hopen, htp, hread]
    refine ⟨hce, ?_, ?_⟩
    · exact List.mem_filterMap.2 ⟨(p, w), hmem, by simp [checkKeep, hce]⟩
    · intro ev hev
      simp only [check]
      apply List.mem_flatMap.2
      refine ⟨(p, w), hmem, ?_⟩
      simp only [checkEffects, hce]
      exact List.mem_map_of_mem _ hev
  · intro hlt
    have hce : checkEntry fs p w = EntryOutcome.keep w [] := by
      unfold checkEntry
      rw [hstat]
      simp [hlt]
    refine ⟨hce, ?_, ?_⟩
    · exact List.mem_filterMap.2 ⟨(p, w), hmem, by simp [checkKeep, hce]⟩
    · simp [checkEffects, hce]

/-- Witness for C2: two tokens watch "shared.txt"; a poll with newer time 9
and content "y" keeps the entry with time 9 and sends one event per token. -/
theorem poll_update_fanout_witness :
    ("shared.txt", Watch.mk [7, 8] FileType.Text 5) ∈ stShared ∧
    ("shared.txt", Watch.mk [7, 8] FileType.Text 9) ∈ (check fsGood2 stShared).1 ∧
    Effect.send (FileEvent.mk 7 (FileContent.Text "y")) ∈ (check fsGood2 stShared).2 ∧
    Effect.send (FileEvent.mk 8 (FileContent.Text "y")) ∈ (check fsGood2 stShared).2 := by
  have h := (poll_update_fanout fsGood2 stShared "shared.txt"
    (Watch.mk [7, 8] FileType.Text 5) 9 "y" (by simp [stShared]) rfl rfl rfl).1 (by decide)
  exact ⟨by simp [stShared], h.2.1, h.2.2 _ (by simp), h.2.2 _ (by simp)⟩

/-- C3: during a poll pass, if a tracked entry's stat succeeds with a
strictly newer modification time and the open succeeds but the read fails,
then one Error event is broadcast per current subscriber token, the entry
remains in the table, and its stored modification time is unchanged. -/
theorem poll_read_failure_broadcast {T : Type} (fs : FS) (st : Table T) (p : String)
    (w : Watch T) (m : Nat) (e : String)
    (hmem : (p, w) ∈ st)
    (hstat : (fs p).statRes = Except.ok m)
    (hlt : w.modified < m)
    (hopen : (fs p).openRes = Except.ok ())
    (hread : (fs p).readRes = Except.error e) :
    checkEntry fs p w = EntryOutcome.keep w
      (w.tokens.map (fun t => FileEvent.mk t (FileContent.Error e))) ∧
    (p, w) ∈ (check fs st).1 ∧
    ∀ ev ∈ w.tokens.map (fun t => FileEvent.mk t (FileContent.Error e)),
      Effect.send ev ∈ (check fs st).2 := by
  have htp : w.tp = FileType.Text := by
    cases hh : w.tp
    exact hh
  have hce : checkEntry fs p w = EntryOutcome.keep w
      (w.tokens.map (fun t => FileEvent.mk t (FileContent.Error e))) := by
    unfold checkEntry
    rw [hstat]
    simp [hlt, hopen, htp, hread]
  refine ⟨hce, ?_, ?_⟩
  · exact List.mem_filterMap.2 ⟨(p, w), hmem, by simp [checkKeep, hce]⟩
  · intro ev hev
    simp only [check]
    apply List.mem_flatMap.2
    refine ⟨(p, w), hmem, ?_⟩
    simp only [checkEffects, hce]
    exact List.mem_map_of_mem _ hev

/-- Witness for C3: a poll on "shared.txt" whose stat reports time 9 but
whose read fails keeps the entry, with time still 5, and sends one Error
event per token. -/
theorem poll_read_failure_broadcast_witness :
    ("shared.txt", Watch.mk [7, 8] FileType.Text 5) ∈ stShared ∧
    ("shared.txt", Watch.mk [7, 8] FileType.Text 5) ∈ (check fsReadFail stShared).1 ∧
    Effect.send (FileEvent.mk 7 (FileContent.Error "stream did not contain valid UTF-8")) ∈
      (check fsReadFail stShared).2 ∧
    Effect.send (FileEvent.mk 8 (FileContent.Error "stream did not contain valid UTF-8")) ∈
      (check fsReadFail stShared).2 := by
  have h := poll_read_failure_broadcast fsReadFail stShared "shared.txt"
    (Watch.mk [7, 8] FileType.Text 5) 9 "stream did not contain valid UTF-8"
    (by simp [stShared]) rfl (by decide) rfl rfl
  exact ⟨by simp [stShared], h.2.1, h.2.2 _ (by simp), h.2.2 _ (by simp)⟩

/-- C4: a Watch command for a path with no existing entry whose stat, open,
or read fails creates no entry — the table is returned unchanged — and
delivers exactly one Error through that request's result sink; a subsequent
Unwatch for the path is a no-op. -/
theorem watch_registration_failure {T : Type} (fs : FS) (st : Table T) (tok : T)
    (tp : FileType) (p : String)
    (hnew : tasksGet st p = none)
    (hfail : regSuccess fs p = false) :
    (∃ e, task fs st (.Watch tok tp p) = (st, [Effect.setSink (FileContent.Error e)])) ∧
    ∀ fs2 : FS, task fs2 st (.Unwatch p) = (st, []) := by
  constructor
  · obtain ⟨e, he⟩ := init_fail tok tp fs p hfail
    refine ⟨e, ?_⟩
    rw [task_watch_new fs st tok tp p hnew, he]
  · intro fs2
    simp only [task]
    rw [tasksRemove_id st p hnew]

/-- Witness for C4: watching the absent "missing.txt" leaves the table as it
was, writes one Error to the sink, and a later Unwatch is a no-op. -/
theorem watch_registration_failure_witness :
    tasksGet stOne "missing.txt" = none ∧
    regSuccess fsGone "missing.txt" = false ∧
    (∃ e, task fsGone stOne (WatchTask.Watch 9 FileType.Text "missing.txt") =
      (stOne, [Effect.setSink (FileContent.Error e)])) ∧
    task fsGone stOne (WatchTask.Unwatch "missing.txt") = (stOne, []) := by
  have h := watch_registration_failure fsGone stOne 9 FileType.Text "missing.txt"
    (by decide) (by decide)
  exact ⟨by decide, by decide, h.1, h.2 fsGone⟩

/-- C5: an Unwatch command removes the entire entry for the path regardless
of how many subscriber tokens it holds, emits no event or sink write at all,
leaves every other entry unchanged, and is a no-op when no entry exists. -/
theorem unwatch_removes_whole_entry {T : Type} (fs : FS) (st : Table T) (p : String)
    (hs : keysSorted st) :
    (task fs st (.Unwatch p)).2 = [] ∧
    ¬ pathMem p (task fs st (.Unwatch p)).1 ∧
    (∀ q u, q ≠ p → ((q, u) ∈ (task fs st (.Unwatch p)).1 ↔ (q, u) ∈ st)) ∧
    (tasksGet st p = none → (task fs st (.Unwatch p)).1 = st) := by
  refine ⟨rfl, ?_, ?_, ?_⟩
  · unfold pathMem
    simp only [task]
    rw [tasksGet_remove_self st p (keysSorted_nodup hs)]
    simp
  · intro q u hqp
    simp only [task]
    exact mem_tasksRemove_iff st p q u hqp
  · intro hnone
    simp only [task]
    rw [tasksRemove_id st p hnone]

/-- Witness for C5: unwatching "shared.txt", which has two subscriber
tokens, removes the whole entry and produces no effect. -/
theorem unwatch_removes_whole_entry_witness :
    keysSorted stShared ∧
    (task fsGood stShared (WatchTask.Unwatch "shared.txt")).2 = [] ∧
    ¬ pathMem "shared.txt" (task fsGood stShared (WatchTask.Unwatch "shared.txt")).1 := by
  have h := unwatch_removes_whole_entry fsGood stShared "shared.txt" (by decide)
  exact ⟨by decide, h.1, h.2.1⟩

/-- C6: during a poll pass, a tracked entry whose stat fails, or whose stat
reports a strictly newer modification time but whose open fails, is evicted
from the table with no event for it; evictions are collected during the scan
and applied after it, so every other entry's presence in the resulting table
is decided purely by that entry's own scan outcome against the pre-pass
table. -/
theorem poll_eviction_silent_batch {T : Type} (fs : FS) (st : Table T) (p : String)
    (w : Watch T)
    (hs : keysSorted st)
    (hmem : (p, w) ∈ st)
    (hev : evicts fs p w = true) :
    checkEntry fs p w = EntryOutcome.evict ∧
    checkEffects fs (p, w) = [] ∧
    ¬ pathMem p (check fs st).1 ∧
    (∀ q u, (q, u) ∈ st → q ≠ p →
      (pathMem q (check fs st).1 ↔ checkEntry fs q u ≠ EntryOutcome.evict)) := by
  have hnd := keysSorted_nodup hs
  have hce : checkEntry fs p w = EntryOutcome.evict := (checkEntry_evict_iff fs p w).2 hev
  refine ⟨hce, ?_, ?_, ?_⟩
  · simp [checkEffects, hce]
  · unfold pathMem
    rw [tasksGet_check fs st p hnd, mem_tasksGet hnd hmem]
    simp [hce]
  · intro q u hqmem hqp
    unfold pathMem
    rw [tasksGet_check fs st q hnd, mem_tasksGet hnd hqmem]
    cases hout : checkEntry fs q u with
    | keep w' evs => simp [hout]
    | evict => simp [hout]

/-- Witness for C6: with "a.txt" gone and "b.txt" healthy, the poll pass
silently evicts "a.txt" while "b.txt" stays exactly as its own scan says. -/
theorem poll_eviction_silent_batch_witness :
    keysSorted stPair ∧
    ("a.txt", Watch.mk [7] FileType.Text 5) ∈ stPair ∧
    evicts fsMixed "a.txt" (Watch.mk [7] FileType.Text 5) = true ∧
    ¬ pathMem "a.txt" (check fsMixed stPair).1 ∧
    (pathMem "b.txt" (check fsMixed stPair).1 ↔
      checkEntry fsMixed "b.txt" (Watch.mk [8] FileType.Text 5) ≠ EntryOutcome.evict) := by
  have hsort : keysSorted stPair := by
    unfold keysSorted stPair
    simp only [List.map_cons, List.map_nil]
    refine List.Pairwise.cons ?_ (List.Pairwise.cons (fun k hk => nomatch hk) List.Pairwise.nil)
    intro k hk
    rcases List.mem_singleton.1 hk with rfl
    exact String.lt_iff_toList_lt.2 (by decide)
  have h := poll_eviction_silent_batch fsMixed stPair "a.txt" (Watch.mk [7] FileType.Text 5)
    hsort (by decide) (by decide)
  exact ⟨hsort, by decide, by decide, h.2.2.1, h.2.2.2 "b.txt" _ (by decide) (by decide)⟩

/-- C7 counterexample: no engine step — neither command processing nor a
poll pass — ever produces an effect carrying the `Remove` content variant,
on any table and any filesystem observation; concretely, when the tracked
"a.txt" becomes absent, the poll pass emits no event at all, so no removal
notification is ever delivered to subscribers. -/
theorem remove_event_never_delivered :
    (∀ (T : Type) (st : Table T) (s : EngineStep T),
      ((stepRun st s).2).filter (fun eff => isRemoveEffect eff) = []) ∧
    (check fsGone stOne).2 = [] :=
  ⟨fun _ st s => stepRun_no_remove st s, rfl⟩

/-- C7 amended: consumers are not notified of file removal: the `Remove`
content variant is declared but never produced; when a tracked file becomes
absent (its stat fails during a poll pass) the entry is silently evicted —
it leaves the table and no event of any kind, in particular no Remove event,
is emitted. -/
theorem tracked_removal_is_silent_eviction {T : Type} (fs : FS) (st : Table T)
    (p : String) (w : Watch T) (e : String)
    (hs : keysSorted st)
    (hmem : (p, w) ∈ st)
    (hstat : (fs p).statRes = Except.error e) :
    checkEntry fs p w = EntryOutcome.evict ∧
    checkEffects fs (p, w) = [] ∧
    ¬ pathMem p (check fs st).1 ∧
    ((check fs st).2).filter (fun eff => isRemoveEffect eff) = [] := by
  have hev : evicts fs p w = true := by
    unfold evicts
    rw [hstat]
  have hce := (checkEntry_evict_iff fs p w).2 hev
  refine ⟨hce, by simp [checkEffects, hce], ?_, check_no_remove fs st⟩
  unfold pathMem
  rw [tasksGet_check fs st p (keysSorted_nodup hs), mem_tasksGet (keysSorted_nodup hs) hmem]
  simp [hce]

/-- Witness for the amended C7: when "a.txt" is gone, the poll pass on the
table tracking it evicts the entry and emits no Remove effect. -/
theorem tracked_removal_is_silent_eviction_witness :
    ("a.txt", Watch.mk [7] FileType.Text 5) ∈ stOne ∧
    (fsGone "a.txt").statRes = Except.error "no such file" ∧
    ¬ pathMem "a.txt" (check fsGone stOne).1 ∧
    ((check fsGone stOne).2).filter (fun eff => isRemoveEffect eff) = [] := by
  have h := tracked_removal_is_silent_eviction fsGone stOne "a.txt"
    (Watch.mk [7] FileType.Text 5) "no such file" (by decide) (by decide) rfl
  exact ⟨by decide, rfl, h.2.2.1, h.2.2.2⟩

/-- C8: a Watch command for a path that already has an entry appends the
token to the entry's subscriber list, immediately re-opens and re-reads the
file — the delivered outcome `rereadContent fs tp p` is built only from the
path's open and read results, with no stat and no comparison against the
stored modification time — writes that outcome to the caller's result sink,
and leaves the entry's stored modification time (and file type) unchanged. -/
theorem watch_existing_appends_and_rereads {T : Type} (fs : FS) (st : Table T)
    (tok : T) (tp : FileType) (p : String) (w : Watch T)
    (hget : tasksGet st p = some w) :
    task fs st (.Watch tok tp p) =
      (tasksInsert p (Watch.mk (w.tokens ++ [tok]) w.tp w.modified) st,
       [Effect.setSink (rereadContent fs tp p)]) ∧
    tasksGet (task fs st (.Watch tok tp p)).1 p =
      some (Watch.mk (w.tokens ++ [tok]) w.tp w.modified) := by
  have h := task_watch_existing fs st tok tp p w hget
  refine ⟨h, ?_⟩
  rw [h, tasksGet_insert]
  simp

/-- Witness for C8: a second token watching "a.txt" under an oracle whose
stat time is 9 gets content "y" through its sink while the entry keeps the
old stored time 5 with both tokens subscribed. -/
theorem watch_existing_appends_and_rereads_witness :
    tasksGet stOne "a.txt" = some (Watch.mk [7] FileType.Text 5) ∧
    tasksGet (task fsGood2 stOne (WatchTask.Watch 8 FileType.Text "a.txt")).1 "a.txt" =
      some (Watch.mk [7, 8] FileType.Text 5) ∧
    rereadContent fsGood2 FileType.Text "a.txt" = FileContent.Text "y" := by
  have h := watch_existing_appends_and_rereads fsGood2 stOne 8 FileType.Text "a.txt"
    (Watch.mk [7] FileType.Text 5) (by decide)
  exact ⟨by decide, h.2, rfl⟩

/-- C9: processing a Watch command writes that request's result sink exactly
once on every control path, while a poll pass performs no sink write at all
(and an Unwatch command, which carries no sink, performs none either). -/
theorem result_sink_written_once {T : Type} (fs : FS) (st : Table T) (tok : T)
    (tp : FileType) (p : String) :
    (sinkWrites (task fs st (.Watch tok tp p)).2).length = 1 ∧
    sinkWrites (check fs st).2 = [] ∧
    sinkWrites (task fs st (.Unwatch p)).2 = [] := by
  refine ⟨?_, sinkWrites_check fs st, rfl⟩
  cases hget : tasksGet st p with
  | some w =>
    rw [task_watch_existing fs st tok tp p w hget]
    rfl
  | none =>
    rw [task_watch_new fs st tok tp p hget]
    cases hi : init tok tp fs p with
    | mk ow c =>
      cases ow with
      | some w => rfl
      | none => rfl

/-- C10: when a Watch command targets a path that already has an entry and
the immediate re-read fails (open error, or open success then read error),
the token was appended to the subscriber list before the read was attempted:
the caller receives an Error through its result sink yet stays subscribed,
and a later poll whose stat/open/read succeed with a strictly newer time
fans the update event out to that token as well. -/
theorem watch_existing_reread_failure_keeps_subscription {T : Type} (fs : FS)
    (st : Table T) (tok : T) (tp : FileType) (p : String) (w : Watch T)
    (hget : tasksGet st p = some w)
    (hfail : (∃ e, (fs p).openRes = Except.error e) ∨
      ((fs p).openRes = Except.ok () ∧ ∃ e, (fs p).readRes = Except.error e)) :
    (∃ e, (task fs st (.Watch tok tp p)).2 = [Effect.setSink (FileContent.Error e)]) ∧
    tasksGet (task fs st (.Watch tok tp p)).1 p =
      some (Watch.mk (w.tokens ++ [tok]) w.tp w.modified) ∧
    (∀ (fs2 : FS) (m : Nat) (s : String),
      (fs2 p).statRes = Except.ok m → w.modified < m →
      (fs2 p).openRes = Except.ok () → (fs2 p).readRes = Except.ok s →
      checkEntry fs2 p (Watch.mk (w.tokens ++ [tok]) w.tp w.modified) =
        EntryOutcome.keep (Watch.mk (w.tokens ++ [tok]) w.tp m)
          ((w.tokens ++ [tok]).map (fun t => FileEvent.mk t (FileContent.Text s))) ∧
      FileEvent.mk tok (FileContent.Text s) ∈
        (w.tokens ++ [tok]).map (fun t => FileEvent.mk t (FileContent.Text s))) := by
  have h := task_watch_existing fs st tok tp p w hget
  refine ⟨?_, ?_, ?_⟩
  · rw [h]
    rcases hfail with ⟨e, he⟩ | ⟨hok, e, he⟩
    · refine ⟨e, ?_⟩
      unfold rereadContent
      rw [he]
    · refine ⟨e, ?_⟩
      unfold rereadContent
      rw [hok]
      cases tp
      rw [he]
  · rw [h, tasksGet_insert]
    simp
  · intro fs2 m s hstat hlt hopen hread
    have htp : w.tp = FileType.Text := by
      cases hh : w.tp
      exact hh
    constructor
    · unfold checkEntry
      rw [hstat]
      simp [hlt, hopen, htp, hread]
    · exact List.mem_map_of_mem _ (by simp)

/-- Witness for C10: a second token watching "a.txt" while the read fails
gets an Error through its sink, is nevertheless appended to the entry, and a
later successful poll sends the update to it. -/
theorem watch_existing_reread_failure_keeps_subscription_witness :
    tasksGet stOne "a.txt" = some (Watch.mk [7] FileType.Text 5) ∧
    (∃ e, (task fsReadFail stOne (WatchTask.Watch 8 FileType.Text "a.txt")).2 =
      [Effect.setSink (FileContent.Error e)]) ∧
    tasksGet (task fsReadFail stOne (WatchTask.Watch 8 FileType.Text "a.txt")).1 "a.txt" =
      some (Watch.mk [7, 8] FileType.Text 5) ∧
    FileEvent.mk 8 (FileContent.Text "y") ∈
      ([7, 8] : List Nat).map (fun t => FileEvent.mk t (FileContent.Text "y")) := by
  have h := watch_existing_reread_failure_keeps_subscription fsReadFail stOne 8 FileType.Text
    "a.txt" (Watch.mk [7] FileType.Text 5) (by decide)
    (Or.inr ⟨rfl, "stream did not contain valid UTF-8", rfl⟩)
  refine ⟨by decide, h.1, h.2.1, ?_⟩
  exact (h.2.2 fsGood2 9 "y" rfl (by decide) rfl rfl).2

end RuntimeConfig
